import Mathlib

/-!
Shallow embedding of the interactive completion engine of a structured
command shell (`crates/nu-cli/src/completions.rs`), together with proofs
about its behaviour.

Modelling conventions:
* Rust `String` / `&[u8]` values are modelled as `List Char` (`Str`).
  Rust byte-wise comparisons on UTF-8 strings agree with character-wise
  code-point comparisons, so prefix tests and lexicographic comparisons
  transfer.
* The filesystem (`nu_path::expand_path_with`, `read_dir`, the executable
  bit) and the parser/evaluator subsystem (`parse`, `flatten_expression`,
  `eval_block`, `find_commands_by_prefix`, `get_span_contents`) are
  external collaborators; they are modelled as oracle records
  (`Filesystem`, `ParseOut`) threaded through the definitions.
* `usize` span arithmetic in the source subtracts a per-request offset;
  translated spans are modelled with `Int` coordinates so that an
  underflow would be visible as a negative coordinate.
* The `.expect("FIXME: better error handling for custom completions")`
  panic in the dynamic-provider branch is modelled as `Option.none` at the
  `completion_helper` level: `none` means the process aborts and no
  candidate list is ever produced.
* We model a Unix platform: `std::path::MAIN_SEPARATOR` is `'/'` and
  `std::path::is_separator c` holds exactly for `'/'`.
-/

namespace EngineQ

/-- Rust strings / byte slices, modelled as lists of characters. -/
abbrev Str := List Char

/-- Characters of a Lean string literal, used to write `Str` constants. -/
def str (s : String) : Str := s.data

/-- Model of `nu_protocol::Span`: an absolute half-open byte range over the working
set.  The source field `end` is a Lean keyword, rendered here as `stop`. -/
structure Span where
  start : Nat
  stop : Nat
deriving DecidableEq

/-- Model of `reedline::Span` as produced by span translation.  Coordinates are
integers so that an underflow of the source's `usize` subtraction would
show up as a negative value. -/
structure RSpan where
  start : Int
  stop : Int
deriving DecidableEq

/-- Span translation `start - offset` / `end - offset` performed on every
candidate before it is returned. -/
def translate (s : Span) (offset : Nat) : RSpan :=
  ⟨(s.start : Int) - (offset : Int), (s.stop : Int) - (offset : Int)⟩

/-- Model of `nu_protocol::Value`, restricted to what the completer observes:
string values (string-coercible), list values (for `PATH`), and a
catch-all for every other variant. -/
inductive Value where
  | strv (s : Str)
  | listv (xs : List Value)
  | nothing

/-- Model of `Value::as_string`: succeeds exactly on string values. -/
def Value.as_string : Value → Option Str
  | .strv s => some s
  | _ => none

/-- Model of `Value::as_list`: succeeds exactly on list values. -/
def Value.as_list : Value → Option (List Value)
  | .listv xs => some xs
  | _ => none

/-- One immediate entry of a directory listing: its file name, whether it
is itself a directory, and whether the platform marks it executable. -/
structure DirEntry where
  name : Str
  isDir : Bool
  isExec : Bool
deriving DecidableEq

/-- The read-only filesystem oracle: `nu_path::expand_path_with` and
`std::fs::read_dir` (where `none` models a failed directory read; entries
whose per-entry read errors are skipped by the source are simply absent
from the listing). -/
structure Filesystem where
  expandPathWith : Str → Str → Str
  readDir : Str → Option (List DirEntry)

/-- The persistent shell state the completer reads: the long-lived scope
chain (each scope a list of variable names, sigil included) and the
environment-variable map. -/
structure EngineState where
  scope : List (List Str)
  envVars : Str → Option Value

/-- Model of `std::path::MAIN_SEPARATOR` on the modelled (Unix) platform. -/
def SEP : Char := '/'

/-- Model of `std::path::is_separator` on the modelled (Unix) platform. -/
def isSep (c : Char) : Bool := c = '/'

/-- Model of `matches` (the name is reserved in Lean): case-insensitive prefix
test.  The source lowercases both sides with `to_ascii_lowercase`
(ASCII-only, exactly `Char.toLower`) and tests `starts_with`. -/
def nameMatches (part : Str) (from_ : Str) : Bool :=
  (part.map Char.toLower).isPrefixOf (from_.map Char.toLower)

/-- Model of `partial.rsplit_once(is_separator)`: split at the last separator,
removing it; `none` when no separator occurs. -/
def rsplitOnce : Str → Option (Str × Str)
  | [] => none
  | c :: rest =>
    match rsplitOnce rest with
    | some (b, r) => some (c :: b, r)
    | none => if isSep c then some ([], rest) else none

/-- The naive single-character quote strip: `strip_prefix('"')` then
`strip_suffix('"')`. -/
def stripQuotes (part : Str) : Str :=
  let p1 := match part with
    | '"' :: rest => rest
    | other => other
  if p1.getLast? = some '"' then p1.dropLast else p1

/-- The base-directory / name-portion split of `file_path_completion`:
`rsplit_once` with fallback `(".", partial)`, separators in the base
normalised to `SEP`, and exactly one trailing `SEP` appended. -/
def splitBase (p : Str) : Str × Str :=
  let br := (rsplitOnce p).getD (str ".", p)
  ((br.1.map (fun c => if isSep c then SEP else c)) ++ [SEP], br.2)

/-- The unquoted replacement built for a matching entry:
`base_dir_name + file_name`, plus a trailing separator when the entry is a
directory.  (The source also appends the separator to a parallel
`file_name` copy, which is never used afterwards.) -/
def rawPath (baseDirName : Str) (e : DirEntry) : Str :=
  baseDirName ++ e.name ++ (if e.isDir then [SEP] else [])

/-- Quote-wrapping applied to a finished replacement: wrapped in one pair
of double quotes exactly when it contains a space character. -/
def quoteIfSpace (p : Str) : Str :=
  if p.contains ' ' then '"' :: (p ++ ['"']) else p

/-- Model of `file_path_completion`: strip quotes, split into base directory and
name portion, resolve the base against `cwd`, refuse an empty resolved
base, list the directory (a failed read yields no candidates), and keep
the entries whose name matches the name portion case-insensitively. -/
def file_path_completion (fs : Filesystem) (span : Span) (part : Str) (cwd : Str) :
    List (Span × Str) :=
  let p := stripQuotes part
  let base_dir_name := (splitBase p).1
  let rest := (splitBase p).2
  let base_dir := fs.expandPathWith base_dir_name cwd
  if base_dir = [] then []
  else
    match fs.readDir base_dir with
    | none => []
    | some entries =>
      entries.filterMap (fun e =>
        if nameMatches rest e.name then
          some (span, quoteIfSpace (rawPath base_dir_name e))
        else none)

/-- The tail of `Vec::dedup` after a kept element `prev`: drop the
elements equal to the most recently kept one. -/
def rustDedupAfter {α : Type} [DecidableEq α] (prev : α) : List α → List α
  | [] => []
  | b :: rest =>
    if prev = b then rustDedupAfter prev rest else b :: rustDedupAfter b rest

/-- Model of `Vec::dedup` in Rust: remove *consecutive* repeated elements, keeping
the first element of each run. -/
def rustDedup {α : Type} [DecidableEq α] : List α → List α
  | [] => []
  | a :: rest => a :: rustDedupAfter a rest

/-- The fixed builtin pseudo-variable names enumerated first by
`complete_variables`. -/
def builtins : List Str :=
  [str "$nu", str "$scope", str "$in", str "$config", str "$env"]

/-- The candidates contributed by one scope chain in `complete_variables`:
every variable whose name starts with the byte prefix, each paired with
the translated located span. -/
def varCandidates (scopes : List (List Str)) (pre : Str) (span : Span)
    (offset : Nat) : List (RSpan × Str) :=
  scopes.flatMap (fun scope =>
    scope.filterMap (fun v =>
      if pre.isPrefixOf v then some (translate span offset, v) else none))

/-- The concatenated candidate list of `complete_variables` before the
final `dedup` call: builtins, then the ephemeral (working-set delta)
chain, then the persistent (engine-state) chain. -/
def rawVariables (deltaScope engineScope : List (List Str)) (pre : Str)
    (span : Span) (offset : Nat) : List (RSpan × Str) :=
  (builtins.filterMap (fun b =>
    if pre.isPrefixOf b then some (translate span offset, b) else none))
    ++ varCandidates deltaScope pre span offset
    ++ varCandidates engineScope pre span offset

/-- Model of `complete_variables` (the Scope Enumerator): the concatenated matches
followed by `output.dedup()`. -/
def complete_variables (deltaScope engineScope : List (List Str)) (pre : Str)
    (span : Span) (offset : Nat) : List (RSpan × Str) :=
  rustDedup (rawVariables deltaScope engineScope pre span offset)

/-- Model of `external_command_completion` (the External Executable Scanner): read
`PATH` as a list, and for each directory accumulate the entries whose name
starts with the prefix, are executable, and were not collected already. -/
def external_command_completion (fs : Filesystem) (es : EngineState)
    (pre : Str) : List Str :=
  match es.envVars (str "PATH") with
  | none => []
  | some paths =>
    match paths.as_list with
    | none => []
    | some ps =>
      ps.foldl (fun executables p =>
        match fs.readDir ((p.as_string).getD []) with
        | none => executables
        | some items =>
          items.foldl (fun execs item =>
            if ¬ execs.contains item.name ∧ pre.isPrefixOf item.name
                ∧ item.isExec then
              execs ++ [item.name]
            else execs) executables) []

/-- Model of `nu_parser::FlatShape`, restricted to the variants the dispatcher
distinguishes.  `custom` carries the dynamic-provider reference text;
`other` stands for every shape the dispatcher ignores. -/
inductive FlatShape where
  | custom (cc : Str)
  | external
  | internalCall
  | string
  | filepath
  | globPattern
  | externalArg
  | other
deriving DecidableEq

/-- One parsed statement: a pipeline is a list of expressions, each
represented by its `flatten_expression` result (an ordered list of
(span, shape) pairs); every non-pipeline statement is skipped by the
completer. -/
inductive Stmt where
  | pipeline (exprs : List (List (Span × FlatShape)))
  | decl

/-- The oracle bundling everything the fresh re-parse of the line
provides: the recorded `next_span_start` offset, the parsed statements,
the post-parse working-set delta scopes, `get_span_contents`,
`find_commands_by_prefix`, and the parse-and-evaluate round trip of a
dynamic completion provider (`none` models an execution error). -/
structure ParseOut where
  offset : Nat
  stmts : List Stmt
  deltaScope : List (List Str)
  spanContents : Span → Str
  findCommands : Str → List Str
  runProvider : Str → Span → Option (List Value)

/-- The `PWD` lookup: `as_string` on success, the empty string when the
variable is absent or not string-coercible. -/
def cwdOf (es : EngineState) : Str :=
  match es.envVars (str "PWD") with
  | some d => (d.as_string).getD []
  | none => []

/-- Model of `complete_filepath_and_commands`: command-name lookup over the span
contents, then filesystem path completion against `PWD`, then the
external executable scan, concatenated in exactly that order, each with
spans translated by the offset. -/
def complete_filepath_and_commands (fs : Filesystem) (es : EngineState)
    (P : ParseOut) (span : Span) : List (RSpan × Str) :=
  let pre := P.spanContents span
  let results := (P.findCommands pre).map
    (fun x => (translate span P.offset, x))
  let results_paths := (file_path_completion fs span pre (cwdOf es)).map
    (fun x => (translate x.1 P.offset, x.2))
  let results_external := (external_command_completion fs es pre).map
    (fun x => (translate span P.offset, x))
  results ++ results_paths ++ results_external

/-- Coerce every provider output value to a string, in order; `none` as
soon as one value is not string-coercible (the source calls
`as_string().expect(..)` on each, so a single failure aborts). -/
def coerceAll : List Value → Option (List Str)
  | [] => some []
  | v :: vs =>
    match v.as_string with
    | none => none
    | some s => (coerceAll vs).map (fun rest => s :: rest)

/-- The dynamic-provider branch: run the provider (parse + eval); on an
evaluation error return no candidates; on success coerce every output to
a string (`none` = the `expect` panic), pair each with the translated
located span, and keep those starting with the captured prefix. -/
def customCompletion (P : ParseOut) (cc : Str) (span : Span) :
    Option (List (RSpan × Str)) :=
  let pre := P.spanContents span
  match P.runProvider cc span with
  | none => some []
  | some values =>
    match coerceAll values with
    | none => none
    | some strs =>
      some (((strs.map (fun s => (translate span P.offset, s))).filter
        (fun x => pre.isPrefixOf x.2)))

/-- The filepath/glob/external-argument branch: path completion over the
span contents against `PWD`, spans translated by the offset. -/
def filepathBranch (fs : Filesystem) (es : EngineState) (P : ParseOut)
    (span : Span) : List (RSpan × Str) :=
  (file_path_completion fs span (P.spanContents span) (cwdOf es)).map
    (fun x => (translate x.1 P.offset, x.2))

/-- Result of examining one flattened token: either the scan continues,
or the helper returns `r` (`r = none` modelling the provider-coercion
panic). -/
inductive StepRes where
  | cont
  | ret (r : Option (List (RSpan × Str)))

/-- The per-token body of `completion_helper`'s scan: if the absolute
cursor lies within the token's span (both ends inclusive), dispatch on
the variable sigil first and then on the token's shape; tokens whose
shape the dispatcher ignores let the scan continue. -/
def tryFlat (fs : Filesystem) (es : EngineState) (P : ParseOut) (pos : Nat)
    (flat : Span × FlatShape) : StepRes :=
  if pos ≥ flat.1.start ∧ pos ≤ flat.1.stop then
    if (str "$").isPrefixOf (P.spanContents flat.1) then
      .ret (some (complete_variables P.deltaScope es.scope
        (P.spanContents flat.1) flat.1 P.offset))
    else
      match flat.2 with
      | .custom cc => .ret (customCompletion P cc flat.1)
      | .external => .ret (some (complete_filepath_and_commands fs es P flat.1))
      | .internalCall => .ret (some (complete_filepath_and_commands fs es P flat.1))
      | .string => .ret (some (complete_filepath_and_commands fs es P flat.1))
      | .filepath => .ret (some (filepathBranch fs es P flat.1))
      | .globPattern => .ret (some (filepathBranch fs es P flat.1))
      | .externalArg => .ret (some (filepathBranch fs es P flat.1))
      | .other => .cont
  else .cont

/-- Scan a list of flattened tokens in order; the first token that
produces a return ends the scan. -/
def scanFlats (fs : Filesystem) (es : EngineState) (P : ParseOut)
    (pos : Nat) : List (Span × FlatShape) → StepRes
  | [] => .cont
  | f :: rest =>
    match tryFlat fs es P pos f with
    | .ret r => .ret r
    | .cont => scanFlats fs es P pos rest

/-- Scan the expressions of one pipeline in order. -/
def scanExprs (fs : Filesystem) (es : EngineState) (P : ParseOut)
    (pos : Nat) : List (List (Span × FlatShape)) → StepRes
  | [] => .cont
  | e :: rest =>
    match scanFlats fs es P pos e with
    | .ret r => .ret r
    | .cont => scanExprs fs es P pos rest

/-- Scan the parsed statements in order; non-pipeline statements are
skipped. -/
def scanStmts (fs : Filesystem) (es : EngineState) (P : ParseOut)
    (pos : Nat) : List Stmt → StepRes
  | [] => .cont
  | .pipeline exprs :: rest =>
    match scanExprs fs es P pos exprs with
    | .ret r => .ret r
    | .cont => scanStmts fs es P pos rest
  | .decl :: rest => scanStmts fs es P pos rest

/-- Model of `completion_helper`: convert the caller-relative cursor into
working-set coordinates by adding the offset, scan every statement, and
return an empty list when no token produced a result.  `none` models the
process-aborting panic of the dynamic-provider branch. -/
def completion_helper (fs : Filesystem) (es : EngineState) (P : ParseOut)
    (pos : Nat) : Option (List (RSpan × Str)) :=
  match scanStmts fs es P (P.offset + pos) P.stmts with
  | .ret r => r
  | .cont => some []

/-- Byte-wise (equivalently, character-wise) lexicographic comparison,
the order induced by Rust's `String::cmp` used in the final
`sort_by(|a, b| a.1.cmp(&b.1))`. -/
def lexLe : Str → Str → Bool
  | [], _ => true
  | _ :: _, [] => false
  | a :: xs, b :: ys =>
    if a < b then true else if b < a then false else lexLe xs ys

/-- The comparison the public entry point sorts by: the replacement text
only, spans ignored. -/
def textLe (a b : RSpan × Str) : Bool := lexLe a.2 b.2

/-- The public `complete` entry point: the helper's candidates sorted by
replacement text with a stable sort (Rust `sort_by` is stable; `mergeSort`
is its standard stable model). -/
def complete (fs : Filesystem) (es : EngineState) (P : ParseOut)
    (pos : Nat) : Option (List (RSpan × Str)) :=
  (completion_helper fs es P pos).map (fun out => out.mergeSort textLe)

/-- Shapes on which the dispatcher takes a terminal action (everything
except the ignored catch-all). -/
def FlatShape.handled : FlatShape → Bool
  | .other => false
  | _ => true

/-- A flattened token ends the scan exactly when the absolute cursor lies
within its span (inclusive on both ends) and either its text starts with
the variable sigil or its shape is one the dispatcher handles. -/
def actionable (P : ParseOut) (pos : Nat) (f : Span × FlatShape) : Bool :=
  (decide (pos ≥ f.1.start) && decide (pos ≤ f.1.stop)) &&
    ((str "$").isPrefixOf (P.spanContents f.1) || f.2.handled)

/-- The terminal action taken for the token that ends the scan. -/
def dispatch (fs : Filesystem) (es : EngineState) (P : ParseOut)
    (f : Span × FlatShape) : Option (List (RSpan × Str)) :=
  if (str "$").isPrefixOf (P.spanContents f.1) then
    some (complete_variables P.deltaScope es.scope
      (P.spanContents f.1) f.1 P.offset)
  else
    match f.2 with
    | .custom cc => customCompletion P cc f.1
    | .external => some (complete_filepath_and_commands fs es P f.1)
    | .internalCall => some (complete_filepath_and_commands fs es P f.1)
    | .string => some (complete_filepath_and_commands fs es P f.1)
    | .filepath => some (filepathBranch fs es P f.1)
    | .globPattern => some (filepathBranch fs es P f.1)
    | .externalArg => some (filepathBranch fs es P f.1)
    | .other => some []

/-- The flattened tokens contributed by one parsed statement, in document
order. -/
def exprFlats : Stmt → List (Span × FlatShape)
  | .pipeline exprs => exprs.flatten
  | .decl => []

/-- All flattened tokens of the re-parse, in document order. -/
def allFlats (stmts : List Stmt) : List (Span × FlatShape) :=
  stmts.flatMap exprFlats

theorem tryFlat_eq (fs : Filesystem) (es : EngineState) (P : ParseOut)
    (pos : Nat) (f : Span × FlatShape) :
    tryFlat fs es P pos f =
      if actionable P pos f then .ret (dispatch fs es P f) else .cont := by
  unfold tryFlat actionable dispatch
  rcases f with ⟨sp, sh⟩
  by_cases hin : pos ≥ sp.start ∧ pos ≤ sp.stop
  · simp only [if_pos hin, decide_eq_true hin.1, decide_eq_true hin.2,
      Bool.true_and]
    by_cases hd : ((str "$").isPrefixOf (P.spanContents sp)) = true
    · simp [hd]
    · simp only [Bool.not_eq_true] at hd
      simp only [hd, Bool.false_or]
      cases sh <;> simp [FlatShape.handled, hd]
  · rw [if_neg hin]
    rcases Decidable.not_and_iff_or_not.mp hin with h | h
    · simp [decide_eq_false h]
    · simp [decide_eq_false h]

theorem scanFlats_eq_find (fs : Filesystem) (es : EngineState)
    (P : ParseOut) (pos : Nat) (flats : List (Span × FlatShape)) :
    scanFlats fs es P pos flats =
      match flats.find? (actionable P pos) with
      | some f => .ret (dispatch fs es P f)
      | none => .cont := by
  induction flats with
  | nil => simp [scanFlats]
  | cons f rest ih =>
    rw [scanFlats, tryFlat_eq, List.find?_cons]
    by_cases h : actionable P pos f = true
    · simp [h]
    · simp only [Bool.not_eq_true] at h
      simp [h, ih]

theorem scanFlats_append (fs : Filesystem) (es : EngineState)
    (P : ParseOut) (pos : Nat) (l₁ l₂ : List (Span × FlatShape)) :
    scanFlats fs es P pos (l₁ ++ l₂) =
      match scanFlats fs es P pos l₁ with
      | .ret r => .ret r
      | .cont => scanFlats fs es P pos l₂ := by
  induction l₁ with
  | nil => simp [scanFlats]
  | cons f rest ih =>
    rw [List.cons_append, scanFlats, scanFlats]
    cases tryFlat fs es P pos f with
    | ret r => rfl
    | cont => exact ih

theorem scanExprs_eq (fs : Filesystem) (es : EngineState) (P : ParseOut)
    (pos : Nat) (exprs : List (List (Span × FlatShape))) :
    scanExprs fs es P pos exprs = scanFlats fs es P pos exprs.flatten := by
  induction exprs with
  | nil => simp [scanExprs, scanFlats]
  | cons e rest ih =>
    rw [scanExprs, List.flatten_cons, scanFlats_append, ih]

theorem scanStmts_eq (fs : Filesystem) (es : EngineState) (P : ParseOut)
    (pos : Nat) (stmts : List Stmt) :
    scanStmts fs es P pos stmts = scanFlats fs es P pos (allFlats stmts) := by
  induction stmts with
  | nil => simp [scanStmts, allFlats, scanFlats]
  | cons s rest ih =>
    cases s with
    | pipeline exprs =>
      rw [scanStmts, scanExprs_eq, allFlats, List.flatMap_cons,
        scanFlats_append, ih]
      rfl
    | decl =>
      rw [scanStmts, allFlats, List.flatMap_cons]
      simp only [exprFlats, List.nil_append]
      exact ih

/-- The helper `completion_helper`, re-expressed through the first actionable token:
the scan returns the dispatch result of the first flattened token that is
actionable at the absolute cursor, and the empty list when there is
none. -/
theorem completion_helper_eq (fs : Filesystem) (es : EngineState)
    (P : ParseOut) (pos : Nat) :
    completion_helper fs es P pos =
      match (allFlats P.stmts).find? (actionable P (P.offset + pos)) with
      | some f => dispatch fs es P f
      | none => some [] := by
  unfold completion_helper
  rw [scanStmts_eq, scanFlats_eq_find]
  cases (allFlats P.stmts).find? (actionable P (P.offset + pos)) <;> rfl

theorem rustDedupAfter_sublist {α : Type} [DecidableEq α] (prev : α) :
    ∀ l : List α, List.Sublist (rustDedupAfter prev l) l := by
  intro l
  induction l generalizing prev with
  | nil => exact List.Sublist.refl []
  | cons b rest ih =>
    simp only [rustDedupAfter]
    by_cases h : prev = b
    · rw [if_pos h]
      exact (ih prev).trans (List.sublist_cons_self b rest)
    · rw [if_neg h]
      exact (ih b).cons₂ b

theorem rustDedup_sublist {α : Type} [DecidableEq α] :
    ∀ l : List α, List.Sublist (rustDedup l) l
  | [] => List.Sublist.refl []
  | a :: rest => (rustDedupAfter_sublist a rest).cons₂ a

theorem rustDedupAfter_chain' {α : Type} [DecidableEq α] (prev : α) :
    ∀ l : List α, (prev :: rustDedupAfter prev l).Chain' (fun x y => x ≠ y) := by
  intro l
  induction l generalizing prev with
  | nil => exact List.chain'_singleton prev
  | cons c rest ih =>
    simp only [rustDedupAfter]
    by_cases h : prev = c
    · rw [if_pos h]
      exact ih prev
    · rw [if_neg h]
      exact List.chain'_cons.mpr ⟨h, ih c⟩

theorem rustDedup_chain' {α : Type} [DecidableEq α] :
    ∀ l : List α, (rustDedup l).Chain' (fun x y => x ≠ y)
  | [] => List.chain'_nil
  | a :: rest => rustDedupAfter_chain' a rest

theorem lexLe_nil (ys : Str) : lexLe [] ys = true := by
  rw [lexLe]

theorem lexLe_cons_nil (a : Char) (xs : Str) : lexLe (a :: xs) [] = false := by
  rw [lexLe]

theorem lexLe_cons_cons (a b : Char) (xs ys : Str) :
    lexLe (a :: xs) (b :: ys) =
      if a < b then true else if b < a then false else lexLe xs ys := by
  rw [lexLe]

theorem lexLe_total : ∀ xs ys : Str, lexLe xs ys = true ∨ lexLe ys xs = true
  | [], ys => Or.inl (lexLe_nil ys)
  | _ :: _, [] => Or.inr (lexLe_nil _)
  | a :: xs, b :: ys => by
    rcases lt_trichotomy a b with h | h | h
    · left; rw [lexLe_cons_cons, if_pos h]
    · subst h
      rcases lexLe_total xs ys with ih | ih
      · left; rw [lexLe_cons_cons, if_neg (lt_irrefl a), if_neg (lt_irrefl a)]
        exact ih
      · right; rw [lexLe_cons_cons, if_neg (lt_irrefl a), if_neg (lt_irrefl a)]
        exact ih
    · right; rw [lexLe_cons_cons, if_pos h]

theorem lexLe_trans :
    ∀ xs ys zs : Str,
      lexLe xs ys = true → lexLe ys zs = true → lexLe xs zs = true
  | [], _, zs, _, _ => lexLe_nil zs
  | _ :: _, [], _, h₁, _ => by rw [lexLe_cons_nil] at h₁; exact absurd h₁ (by simp)
  | _ :: _, _ :: _, [], _, h₂ => by
    rw [lexLe_cons_nil] at h₂; exact absurd h₂ (by simp)
  | a :: xs, b :: ys, c :: zs, h₁, h₂ => by
    rw [lexLe_cons_cons] at h₁ h₂ ⊢
    by_cases hab : a < b
    · by_cases hbc : b < c
      · rw [if_pos (lt_trans hab hbc)]
      · by_cases hcb : c < b
        · rw [if_neg hbc, if_pos hcb] at h₂
          exact absurd h₂ (by simp)
        · have hbceq : b = c := le_antisymm (not_lt.mp hcb) (not_lt.mp hbc)
          rw [if_pos (hbceq ▸ hab)]
    · by_cases hba : b < a
      · rw [if_neg hab, if_pos hba] at h₁
        exact absurd h₁ (by simp)
      · have habeq : a = b := le_antisymm (not_lt.mp hba) (not_lt.mp hab)
        subst habeq
        rw [if_neg hab, if_neg hba] at h₁
        by_cases hac : a < c
        · rw [if_pos hac]
        · by_cases hca : c < a
          · rw [if_neg hac, if_pos hca] at h₂
            exact absurd h₂ (by simp)
          · rw [if_neg hac, if_neg hca] at h₂ ⊢
            exact lexLe_trans xs ys zs h₁ h₂

theorem lexLe_refl : ∀ xs : Str, lexLe xs xs = true
  | [] => lexLe_nil []
  | a :: xs => by
    rw [lexLe_cons_cons, if_neg (lt_irrefl a), if_neg (lt_irrefl a)]
    exact lexLe_refl xs

theorem filterMap_guard {α β : Type} (p : α → Bool) (f : α → β) :
    ∀ l : List α,
      (l.filterMap (fun e => if p e then some (f e) else none)) =
        (l.filter p).map f
  | [] => rfl
  | a :: l => by
    by_cases h : p a
    · simp [List.filterMap_cons, List.filter_cons, h, filterMap_guard p f l]
    · simp [List.filterMap_cons, List.filter_cons, h, filterMap_guard p f l]

/-- The successful path of the Filesystem Path Completer: with a
non-empty resolved base and a readable directory, the output is exactly
the matching entries, in listing order, each carrying the original span
and the (possibly quoted) replacement. -/
theorem file_path_completion_eq (fs : Filesystem) (span : Span)
    (part cwd base rest d : Str) (entries : List DirEntry)
    (hsplit : splitBase (stripQuotes part) = (base, rest))
    (hd : fs.expandPathWith base cwd = d) (hne : d ≠ [])
    (hread : fs.readDir d = some entries) :
    file_path_completion fs span part cwd =
      (entries.filter (fun e => nameMatches rest e.name)).map
        (fun e => (span, quoteIfSpace (rawPath base e))) := by
  simp only [file_path_completion]
  rw [hsplit]
  dsimp only
  rw [hd, if_neg hne, hread]
  exact filterMap_guard (fun e => nameMatches rest e.name)
    (fun e => (span, quoteIfSpace (rawPath base e))) entries

/-- Every candidate of the Filesystem Path Completer carries the original
input span unchanged. -/
theorem file_path_completion_span (fs : Filesystem) (span : Span)
    (part cwd : Str) :
    ∀ c ∈ file_path_completion fs span part cwd, c.1 = span := by
  intro c hc
  simp only [file_path_completion] at hc
  by_cases hb :
      fs.expandPathWith (splitBase (stripQuotes part)).1 cwd = []
  · rw [hb, if_pos rfl] at hc
    exact absurd hc (List.not_mem_nil c)
  · rw [if_neg hb] at hc
    cases hr :
        fs.readDir (fs.expandPathWith (splitBase (stripQuotes part)).1 cwd) with
    | none =>
      rw [hr] at hc
      exact absurd hc (List.not_mem_nil c)
    | some entries =>
      rw [hr] at hc
      dsimp only at hc
      rw [filterMap_guard
        (fun e => nameMatches (splitBase (stripQuotes part)).2 e.name)
        (fun e =>
          (span, quoteIfSpace (rawPath (splitBase (stripQuotes part)).1 e)))
        entries] at hc
      obtain ⟨e, _, hee⟩ := List.mem_map.mp hc
      rw [← hee]

theorem rawVariables_span (d g : List (List Str)) (pre : Str) (span : Span)
    (o : Nat) :
    ∀ c ∈ rawVariables d g pre span o, c.1 = translate span o := by
  intro c hc
  simp only [rawVariables, varCandidates, List.mem_append, List.mem_filterMap,
    List.mem_flatMap, Option.ite_none_right_eq_some, Option.some.injEq] at hc
  rcases hc with ((⟨b, _, _, hb⟩ | ⟨s, _, v, _, _, hb⟩) | ⟨s, _, v, _, _, hb⟩) <;>
    rw [← hb]

theorem complete_variables_span (d g : List (List Str)) (pre : Str)
    (span : Span) (o : Nat) :
    ∀ c ∈ complete_variables d g pre span o, c.1 = translate span o := by
  intro c hc
  exact rawVariables_span d g pre span o c
    ((rustDedup_sublist (rawVariables d g pre span o)).subset hc)

theorem complete_filepath_and_commands_span (fs : Filesystem)
    (es : EngineState) (P : ParseOut) (span : Span) :
    ∀ c ∈ complete_filepath_and_commands fs es P span,
      c.1 = translate span P.offset := by
  intro c hc
  simp only [complete_filepath_and_commands, List.mem_append,
    List.mem_map] at hc
  rcases hc with ((⟨x, hx₁, hx₂⟩ | ⟨x, hx₁, hx₂⟩) | ⟨x, hx₁, hx₂⟩)
  · rw [← hx₂]
  · rw [← hx₂]
    dsimp only
    rw [file_path_completion_span fs span (P.spanContents span) (cwdOf es)
      x hx₁]
  · rw [← hx₂]

theorem filepathBranch_span (fs : Filesystem) (es : EngineState)
    (P : ParseOut) (span : Span) :
    ∀ c ∈ filepathBranch fs es P span, c.1 = translate span P.offset := by
  intro c hc
  simp only [filepathBranch, List.mem_map] at hc
  obtain ⟨x, hmem, hx⟩ := hc
  rw [← hx]
  dsimp only
  rw [file_path_completion_span fs span (P.spanContents span) (cwdOf es)
    x hmem]

theorem customCompletion_span (P : ParseOut) (cc : Str) (span : Span)
    (l : List (RSpan × Str)) (h : customCompletion P cc span = some l) :
    ∀ c ∈ l, c.1 = translate span P.offset := by
  intro c hc
  simp only [customCompletion] at h
  cases hr : P.runProvider cc span with
  | none =>
    rw [hr] at h
    cases h
    exact absurd hc (List.not_mem_nil c)
  | some values =>
    rw [hr] at h
    dsimp only at h
    cases hco : coerceAll values with
    | none => rw [hco] at h; exact absurd h (by simp)
    | some strs =>
      rw [hco] at h
      cases h
      have hc' := List.mem_filter.mp hc
      obtain ⟨s, _, hs⟩ := List.mem_map.mp hc'.1
      rw [← hs]

/-- All candidates produced by the terminal action of the dispatched
token reuse that token's span, translated by the offset. -/
theorem dispatch_span (fs : Filesystem) (es : EngineState) (P : ParseOut)
    (f : Span × FlatShape) (l : List (RSpan × Str))
    (h : dispatch fs es P f = some l) :
    ∀ c ∈ l, c.1 = translate f.1 P.offset := by
  intro c hc
  unfold dispatch at h
  split at h
  · cases h
    exact complete_variables_span P.deltaScope es.scope
      (P.spanContents f.1) f.1 P.offset c hc
  · split at h
    · exact customCompletion_span P _ f.1 l h c hc
    · cases h; exact complete_filepath_and_commands_span fs es P f.1 c hc
    · cases h; exact complete_filepath_and_commands_span fs es P f.1 c hc
    · cases h; exact complete_filepath_and_commands_span fs es P f.1 c hc
    · cases h; exact filepathBranch_span fs es P f.1 c hc
    · cases h; exact filepathBranch_span fs es P f.1 c hc
    · cases h; exact filepathBranch_span fs es P f.1 c hc
    · cases h; exact absurd hc (List.not_mem_nil c)

/-- Claim C1 counterexample data: no ephemeral scopes; a persistent chain whose
first and third scope both bind `$a`, with `$b` in between. -/
def c1Engine : List (List Str) := [[str "$a"], [str "$b"], [str "$a"]]

/-- Claim C1 (counterexample): with prefix `$`, the Scope Enumerator emits `$a`
from the first and the third persistent scope with the same span and
text, the two occurrences separated by `$b`; `Vec::dedup` removes only
consecutive duplicates, so both survive and the output is not
duplicate-free. -/
theorem complete_variables_dedup_counterexample :
    ¬ (complete_variables [] c1Engine (str "$") ⟨0, 2⟩ 0).Nodup := by
  decide

/-- Claim C1 (amended): the Scope Enumerator never returns two *adjacent*
candidates with identical (span, text) — duplicate removal is
consecutive-only — and the returned list is a sublist of the concatenated
candidate list, so the first-seen order of the remaining candidates is
preserved. -/
theorem complete_variables_adjacent_dedup
    (deltaScope engineScope : List (List Str)) (pre : Str) (span : Span)
    (offset : Nat) :
    (complete_variables deltaScope engineScope pre span offset).Chain'
        (fun x y => x ≠ y) ∧
      List.Sublist (complete_variables deltaScope engineScope pre span offset)
        (rawVariables deltaScope engineScope pre span offset) :=
  ⟨rustDedup_chain' _, rustDedup_sublist _⟩

/-- The command-name-lookup component of the dispatcher's concatenation. -/
def commandCandidates (P : ParseOut) (span : Span) : List (RSpan × Str) :=
  (P.findCommands (P.spanContents span)).map
    (fun x => (translate span P.offset, x))

/-- The External Executable Scanner component of the dispatcher's
concatenation. -/
def externalCandidates (fs : Filesystem) (es : EngineState) (P : ParseOut)
    (span : Span) : List (RSpan × Str) :=
  (external_command_completion fs es (P.spanContents span)).map
    (fun x => (translate span P.offset, x))

/-- Claim C2 counterexample data: one known command `xcmd`, a working directory
`/w` holding one entry `x1`, no `PATH`. -/
def fsC2 : Filesystem :=
  { expandPathWith := fun _ _ => str "/w"
    readDir := fun d =>
      if d = str "/w" then some [⟨str "x1", false, false⟩] else none }

def esC2 : EngineState :=
  { scope := []
    envVars := fun k =>
      if k = str "PWD" then some (.strv (str "/w")) else none }

def pC2 : ParseOut :=
  { offset := 0
    stmts := []
    deltaScope := []
    spanContents := fun _ => str "x"
    findCommands := fun _ => [str "xcmd"]
    runProvider := fun _ _ => none }

/-- Claim C2 (counterexample): the dispatcher's result list for the
command-like shapes is *not* path candidates first: with one command
match `xcmd` and one path match `./x1`, the result starts with the
command candidate, not the path candidate. -/
theorem complete_filepath_order_counterexample :
    complete_filepath_and_commands fsC2 esC2 pC2 ⟨0, 1⟩ ≠
      (file_path_completion fsC2 ⟨0, 1⟩ (pC2.spanContents ⟨0, 1⟩)
          (cwdOf esC2)).map (fun x => (translate x.1 pC2.offset, x.2))
        ++ (pC2.findCommands (pC2.spanContents ⟨0, 1⟩)).map
          (fun x => (translate ⟨0, 1⟩ pC2.offset, x))
        ++ (external_command_completion fsC2 esC2
            (pC2.spanContents ⟨0, 1⟩)).map
          (fun x => (translate ⟨0, 1⟩ pC2.offset, x)) := by
  decide

/-- Claim C2 (amended): for the external-command / internal-call / bare-string
shapes the dispatcher's result list is the concatenation, in this order,
of the command-name-lookup candidates, then the Filesystem Path
Completer's candidates, then the External Executable Scanner's
candidates (before the final sort). -/
theorem complete_filepath_order (fs : Filesystem) (es : EngineState)
    (P : ParseOut) (span : Span) :
    complete_filepath_and_commands fs es P span =
      commandCandidates P span ++ filepathBranch fs es P span
        ++ externalCandidates fs es P span := rfl

/-- Claim C4 data: a dynamic provider whose (successful) execution yields the
single value `Value.nothing`, which is not string-coercible. -/
def fsC4 : Filesystem :=
  { expandPathWith := fun _ _ => [], readDir := fun _ => none }

def esC4 : EngineState := { scope := [], envVars := fun _ => none }

def pC4 : ParseOut :=
  { offset := 0
    stmts := [.pipeline [[(⟨0, 3⟩, .custom (str "f"))]]]
    deltaScope := []
    spanContents := fun _ => str "f"
    findCommands := fun _ => []
    runProvider := fun _ _ => some [Value.nothing] }

/-- Claim C4: there is a dynamic-provider execution that succeeds but yields a
value that is not string-coercible, and on it the Dynamic Provider
Evaluator — and with it the whole helper — produces no result list at
all: the `expect` panic, modelled as `none`, aborts the request instead
of degrading to an empty or error result. -/
theorem custom_completion_panics :
    pC4.runProvider (str "f") ⟨0, 3⟩ = some [Value.nothing] ∧
    Value.nothing.as_string = none ∧
    customCompletion pC4 (str "f") ⟨0, 3⟩ = none ∧
    completion_helper fsC4 esC4 pC4 1 = none :=
  ⟨rfl, rfl, rfl, rfl⟩

/-- Claim C3: for every directory entry of the resolved base directory, the
entry contributes a candidate exactly when the lowercase form of its name
starts with the lowercase form of the name portion (`nameMatches`): the
output is precisely the matching entries, in listing order. -/
theorem file_path_matching (fs : Filesystem) (span : Span)
    (part cwd base rest d : Str) (entries : List DirEntry)
    (hsplit : splitBase (stripQuotes part) = (base, rest))
    (hd : fs.expandPathWith base cwd = d) (hne : d ≠ [])
    (hread : fs.readDir d = some entries) :
    file_path_completion fs span part cwd =
      (entries.filter (fun e => nameMatches rest e.name)).map
        (fun e => (span, quoteIfSpace (rawPath base e))) :=
  file_path_completion_eq fs span part cwd base rest d entries hsplit hd hne
    hread

/-- Claim C3 witness: one entry `x1` under `/w` matching the partial `x`. -/
theorem file_path_matching_witness :
    file_path_completion fsC2 ⟨0, 1⟩ (str "x") (str "/w") =
      ((([⟨str "x1", false, false⟩] : List DirEntry).filter
          (fun e => nameMatches (str "x") e.name)).map
        (fun e => (⟨0, 1⟩, quoteIfSpace (rawPath (str "./") e)))) :=
  file_path_matching fsC2 ⟨0, 1⟩ (str "x") (str "/w") (str "./") (str "x")
    (str "/w") [⟨str "x1", false, false⟩] (by decide) (by decide) (by decide)
    (by decide)

/-- Claim C6: every replacement produced by the Filesystem Path Completer comes
from a matching entry's raw path; when that raw path contains a space the
replacement is that path wrapped in exactly one pair of double quotes,
and when it contains no space the replacement is the raw path itself,
unquoted — no other character triggers quoting. -/
theorem file_path_quoting (fs : Filesystem) (span : Span)
    (part cwd base rest d : Str) (entries : List DirEntry)
    (hsplit : splitBase (stripQuotes part) = (base, rest))
    (hd : fs.expandPathWith base cwd = d) (hne : d ≠ [])
    (hread : fs.readDir d = some entries) :
    ∀ c ∈ file_path_completion fs span part cwd,
      ∃ e, e ∈ entries ∧ nameMatches rest e.name = true ∧
        ((rawPath base e).contains ' ' = true →
          c.2 = '"' :: (rawPath base e ++ ['"'])) ∧
        ((rawPath base e).contains ' ' = false → c.2 = rawPath base e) := by
  intro c hc
  rw [file_path_completion_eq fs span part cwd base rest d entries hsplit hd
    hne hread] at hc
  obtain ⟨e, he, hee⟩ := List.mem_map.mp hc
  have hf := List.mem_filter.mp he
  refine ⟨e, hf.1, hf.2, ?_, ?_⟩
  · intro hsp
    rw [← hee]
    dsimp only
    rw [quoteIfSpace, if_pos hsp]
  · intro hsp
    rw [← hee]
    dsimp only
    have hn : ¬ ((rawPath base e).contains ' ' = true) := by
      rw [hsp]
      exact Bool.false_ne_true
    rw [quoteIfSpace, if_neg hn]

/-- Claim C6 witness data: a directory with one space-containing and one
space-free entry name. -/
def fsC6 : Filesystem :=
  { expandPathWith := fun _ _ => str "/s"
    readDir := fun d =>
      if d = str "/s" then
        some [⟨str "a b", false, false⟩, ⟨str "cd", false, false⟩]
      else none }

/-- Claim C6 witness: instantiation on `fsC6` with the empty partial, at
the candidate produced by the space-containing entry `a b` (its
replacement is `"./a b"`, quoted). -/
theorem file_path_quoting_witness :
    ∃ e, e ∈ [(⟨str "a b", false, false⟩ : DirEntry),
        ⟨str "cd", false, false⟩] ∧
      nameMatches [] e.name = true ∧
      ((rawPath (str "./") e).contains ' ' = true →
        ((⟨0, 1⟩, str "\"./a b\"") : Span × Str).2 =
          '"' :: (rawPath (str "./") e ++ ['"'])) ∧
      ((rawPath (str "./") e).contains ' ' = false →
        ((⟨0, 1⟩, str "\"./a b\"") : Span × Str).2 = rawPath (str "./") e) :=
  file_path_quoting fsC6 ⟨0, 1⟩ [] (str "/s") (str "./") [] (str "/s")
    [⟨str "a b", false, false⟩, ⟨str "cd", false, false⟩] (by decide)
    (by decide) (by decide) (by decide) (⟨0, 1⟩, str "\"./a b\"")
    (by decide)

/-- Claim C7: an empty resolved base directory yields zero path candidates, and
a failed directory read likewise yields the empty candidate list rather
than a propagated error. -/
theorem file_path_empty_base (fs : Filesystem) (span : Span)
    (part cwd base rest : Str)
    (hsplit : splitBase (stripQuotes part) = (base, rest)) :
    (fs.expandPathWith base cwd = [] →
      file_path_completion fs span part cwd = []) ∧
    (fs.readDir (fs.expandPathWith base cwd) = none →
      file_path_completion fs span part cwd = []) := by
  constructor
  · intro h
    simp only [file_path_completion]
    rw [hsplit]
    dsimp only
    rw [h, if_pos rfl]
  · intro h
    simp only [file_path_completion]
    rw [hsplit]
    dsimp only
    by_cases hb : fs.expandPathWith base cwd = []
    · rw [hb, if_pos rfl]
    · rw [if_neg hb, h]

/-- Claim C7 witness: a filesystem whose resolution yields the empty path and
whose directory reads all fail produces no candidates either way. -/
theorem file_path_empty_base_witness :
    file_path_completion fsC4 ⟨0, 1⟩ (str "x") [] = [] ∧
    file_path_completion fsC4 ⟨0, 1⟩ (str "x") [] = [] :=
  ⟨(file_path_empty_base fsC4 ⟨0, 1⟩ (str "x") [] (str "./") (str "x")
      (by decide)).1 rfl,
    (file_path_empty_base fsC4 ⟨0, 1⟩ (str "x") [] (str "./") (str "x")
      (by decide)).2 rfl⟩

/-- Claim C10: when the name portion of the partial path is empty (for example
the partial ends in a separator), every immediate entry of the readable
resolved base directory yields a candidate: the empty prefix matches
every entry name case-insensitively. -/
theorem file_path_empty_name_portion (fs : Filesystem) (span : Span)
    (part cwd base d : Str) (entries : List DirEntry)
    (hsplit : splitBase (stripQuotes part) = (base, []))
    (hd : fs.expandPathWith base cwd = d) (hne : d ≠ [])
    (hread : fs.readDir d = some entries) :
    file_path_completion fs span part cwd =
      entries.map (fun e => (span, quoteIfSpace (rawPath base e))) := by
  rw [file_path_completion_eq fs span part cwd base [] d entries hsplit hd hne
    hread]
  have hall : entries.filter (fun e => nameMatches [] e.name) = entries :=
    List.filter_eq_self.mpr
      (fun e _ => by simp [nameMatches, List.isPrefixOf_nil_left])
  rw [hall]

/-- Claim C10 witness data: a partial ending in a separator over a directory
with two entries. -/
def fsC10 : Filesystem :=
  { expandPathWith := fun _ _ => str "/d"
    readDir := fun dd =>
      if dd = str "/d" then
        some [⟨str "one", false, false⟩, ⟨str "two", true, false⟩]
      else none }

/-- Claim C10 witness: the partial `d/` has an empty name portion, so both
entries of the resolved directory become candidates. -/
theorem file_path_empty_name_portion_witness :
    file_path_completion fsC10 ⟨0, 2⟩ (str "d/") (str "/") =
      ([(⟨str "one", false, false⟩ : DirEntry),
          ⟨str "two", true, false⟩]).map
        (fun e => (⟨0, 2⟩, quoteIfSpace (rawPath (str "d/") e))) :=
  file_path_empty_name_portion fsC10 ⟨0, 2⟩ (str "d/") (str "/") (str "d/")
    (str "/d") [⟨str "one", false, false⟩, ⟨str "two", true, false⟩]
    (by decide) (by decide) (by decide) (by decide)

theorem textLe_trans (a b c : RSpan × Str) (h₁ : textLe a b = true)
    (h₂ : textLe b c = true) : textLe a c = true :=
  lexLe_trans a.2 b.2 c.2 h₁ h₂

theorem textLe_total (a b : RSpan × Str) : (textLe a b || textLe b a) = true := by
  rcases lexLe_total a.2 b.2 with h | h
  · rw [Bool.or_eq_true]
    exact Or.inl h
  · rw [Bool.or_eq_true]
    exact Or.inr h

/-- Claim C5: whenever the helper produces a candidate list (no panic), the
public entry point returns it sorted by replacement text in ascending
lexicographic order, and the sort is stable: the subsequence of
candidates carrying any fixed replacement text is exactly the one of the
pre-sort list. -/
theorem complete_sorted_stable (fs : Filesystem) (es : EngineState)
    (P : ParseOut) (pos : Nat) (l : List (RSpan × Str))
    (h : completion_helper fs es P pos = some l) :
    ∃ out, complete fs es P pos = some out ∧
      out.Pairwise (fun a b => lexLe a.2 b.2 = true) ∧
      ∀ s : Str, out.filter (fun c => decide (c.2 = s)) =
        l.filter (fun c => decide (c.2 = s)) := by
  refine ⟨l.mergeSort textLe, ?_, ?_, ?_⟩
  · rw [complete, h]
    rfl
  · have hs := @List.sorted_mergeSort (RSpan × Str) textLe textLe_trans
      textLe_total l
    exact hs.imp (fun h => h)
  · intro s
    have hsub : List.Sublist (l.filter (fun c => decide (c.2 = s))) l :=
      List.filter_sublist l
    have hpw : (l.filter (fun c => decide (c.2 = s))).Pairwise
        (fun a b => textLe a b = true) := by
      apply List.pairwise_of_forall_mem_list
      intro a ha b hb
      have ha2 := of_decide_eq_true (List.mem_filter.mp ha).2
      have hb2 := of_decide_eq_true (List.mem_filter.mp hb).2
      rw [textLe, ha2, hb2]
      exact lexLe_refl s
    have h1 : List.Sublist (l.filter (fun c => decide (c.2 = s)))
        (l.mergeSort textLe) :=
      List.sublist_mergeSort textLe_trans textLe_total hpw hsub
    have h2 : List.Sublist
        ((l.filter (fun c => decide (c.2 = s))).filter
          (fun c => decide (c.2 = s)))
        ((l.mergeSort textLe).filter (fun c => decide (c.2 = s))) :=
      h1.filter _
    rw [List.filter_eq_self.mpr
      (fun a ha => (List.mem_filter.mp ha).2)] at h2
    have hperm : ((l.mergeSort textLe).filter (fun c => decide (c.2 = s))).Perm
        (l.filter (fun c => decide (c.2 = s))) :=
      (List.mergeSort_perm l textLe).filter _
    exact (h2.eq_of_length hperm.length_eq.symm).symm

/-- Claim C5 witness: the empty parse yields the empty (trivially sorted and
stable) result. -/
theorem complete_sorted_stable_witness :
    ∃ out, complete fsC4 esC4
        ⟨0, [], [], fun _ => [], fun _ => [], fun _ _ => none⟩ 0 = some out ∧
      out.Pairwise (fun a b => lexLe a.2 b.2 = true) ∧
      ∀ s : Str, out.filter (fun c => decide (c.2 = s)) =
        ([] : List (RSpan × Str)).filter (fun c => decide (c.2 = s)) :=
  complete_sorted_stable fsC4 esC4
    ⟨0, [], [], fun _ => [], fun _ => [], fun _ _ => none⟩ 0 [] rfl

/-- Claim C8: if the first actionable located token's literal text begins with
the variable sigil `$`, the resolver returns the Scope Enumerator's
result for that token — whatever lexical shape the classifier assigned
to it. -/
theorem variable_sigil_dispatch (fs : Filesystem) (es : EngineState)
    (P : ParseOut) (pos : Nat) (f : Span × FlatShape)
    (hf : (allFlats P.stmts).find? (actionable P (P.offset + pos)) = some f)
    (hd : (str "$").isPrefixOf (P.spanContents f.1) = true) :
    completion_helper fs es P pos =
      some (complete_variables P.deltaScope es.scope (P.spanContents f.1)
        f.1 P.offset) := by
  rw [completion_helper_eq, hf]
  dsimp only
  unfold dispatch
  rw [if_pos hd]

/-- Claim C8 witness data: a token the classifier tagged as a bare string whose
text nevertheless starts with `$`. -/
def pC8 : ParseOut :=
  { offset := 0
    stmts := [.pipeline [[(⟨0, 2⟩, .string)]]]
    deltaScope := []
    spanContents := fun _ => str "$x"
    findCommands := fun _ => []
    runProvider := fun _ _ => none }

/-- Claim C8 witness: the bare-string-shaped token `$x` is dispatched to the
Scope Enumerator. -/
theorem variable_sigil_dispatch_witness :
    completion_helper fsC4 esC4 pC8 1 =
      some (complete_variables pC8.deltaScope esC4.scope (str "$x")
        ⟨0, 2⟩ 0) :=
  variable_sigil_dispatch fsC4 esC4 pC8 1 (⟨0, 2⟩, .string) (by decide)
    (by decide)

/-- Claim C9: if every flattened span of the fresh re-parse starts no earlier
than the recorded offset and satisfies `start ≤ end`, then every span in
the list returned by the public entry point is non-negative and satisfies
`start ≤ end`: the offset subtraction never underflows. -/
theorem complete_span_bounds (fs : Filesystem) (es : EngineState)
    (P : ParseOut) (pos : Nat)
    (hspans : ∀ f ∈ allFlats P.stmts,
      P.offset ≤ f.1.start ∧ f.1.start ≤ f.1.stop)
    (l : List (RSpan × Str)) (hl : complete fs es P pos = some l) :
    ∀ c ∈ l, 0 ≤ c.1.start ∧ c.1.start ≤ c.1.stop := by
  intro c hc
  rw [complete] at hl
  cases hh : completion_helper fs es P pos with
  | none =>
    rw [hh] at hl
    exact absurd hl (by simp)
  | some l₀ =>
    rw [hh] at hl
    have hl' : l = l₀.mergeSort textLe := by
      injection hl with h
      exact h.symm
    have hmem : c ∈ l₀ := by
      rw [hl'] at hc
      exact List.mem_mergeSort.mp hc
    rw [completion_helper_eq] at hh
    cases hfind :
        (allFlats P.stmts).find? (actionable P (P.offset + pos)) with
    | none =>
      rw [hfind] at hh
      dsimp only at hh
      cases hh
      exact absurd hmem (List.not_mem_nil c)
    | some f =>
      rw [hfind] at hh
      dsimp only at hh
      have hspan := dispatch_span fs es P f l₀ hh c hmem
      have hb := hspans f (List.mem_of_find?_eq_some hfind)
      rw [hspan]
      simp only [translate]
      constructor
      · omega
      · omega

/-- Claim C9 witness data: persistent scope binding `$x`, and a
single-token parse of `$x` at offset 1 with span `[1, 3]`. -/
def esC9 : EngineState := { scope := [[str "$x"]], envVars := fun _ => none }

def pC9 : ParseOut :=
  { offset := 1
    stmts := [.pipeline [[(⟨1, 3⟩, .string)]]]
    deltaScope := []
    spanContents := fun _ => str "$x"
    findCommands := fun _ => []
    runProvider := fun _ _ => none }

/-- Claim C9 witness: the candidate returned for `$x` carries the span
`[0, 2]`, non-negative with `start ≤ end` after offset translation. -/
theorem complete_span_bounds_witness :
    0 ≤ ((⟨0, 2⟩ : RSpan), str "$x").1.start ∧
      ((⟨0, 2⟩ : RSpan), str "$x").1.start ≤
        ((⟨0, 2⟩ : RSpan), str "$x").1.stop :=
  complete_span_bounds fsC4 esC9 pC9 1 (by decide)
    ([((⟨0, 2⟩ : RSpan), str "$x")].mergeSort textLe) rfl
    ((⟨0, 2⟩ : RSpan), str "$x") (List.mem_mergeSort.mpr (by decide))

end EngineQ
